import Mathlib

/-!
Shallow embedding of the pyems mesh-generation engine (`pyems/mesh.py`)
over exact rational arithmetic, together with proofs settling the frozen
claims about it.  Every definition is translated from the source file
unless its doc comment says `Modelled from the spec:`, which marks code
of the repository (or an external numeric routine) that is not available
under `src/` and is therefore reconstructed from the specification text.
-/

set_option allowUnsafeReducibility true
attribute [local semireducible] Rat.mul Rat.add Rat.sub Rat.inv Rat.div Rat.neg

namespace Pyems

/-- Modelled from the spec: `pyems/fp.py` is not in `src/`.  The spec asks for
"one tolerance-aware comparison abstraction (`nearlyEqual`, `nearlyLess`,
`nearlyGreaterOrEqual`, etc.) with a single configurable epsilon".  We fix a
representative epsilon. -/
def fpEps : ℚ := 1 / 1000000

/-- Modelled from the spec: tolerance-aware equality (`fp_equalp`). -/
def fp_equalp (a b : ℚ) : Bool := |a - b| ≤ fpEps

/-- Modelled from the spec: tolerance-aware strict less-than (`fp_ltp`):
`a` is below `b` by more than the tolerance. -/
def fp_ltp (a b : ℚ) : Bool := fpEps < b - a

/-- Modelled from the spec: tolerance-aware strict greater-than (`fp_gtp`). -/
def fp_gtp (a b : ℚ) : Bool := fpEps < a - b

/-- Modelled from the spec: tolerance-aware less-or-equal (`fp_lep`). -/
def fp_lep (a b : ℚ) : Bool := a - b ≤ fpEps

/-- Modelled from the spec: tolerance-aware greater-or-equal (`fp_gep`). -/
def fp_gep (a b : ℚ) : Bool := b - a ≤ fpEps

/-- Modelled from the spec: `fp_nearest` rounds to the nearest representable
position; on exact rationals this is the identity. -/
def fp_nearest (a : ℚ) : ℚ := a

/-- `np.isclose(a, b, rtol=1e-3, atol=0)`: `|a - b| <= rtol * |b|`.  All
`np.isclose` calls in `mesh.py` use `rtol=1e-3, atol=0`. -/
def np_isclose (a b : ℚ) : Bool := |a - b| ≤ (1 / 1000) * |b|

/-- Python's `bisect.insort_left` as a pure function: insert `pos` into the
sorted list `lst` before any element equal to it.  This is exactly
Mathlib's `orderedInsert` for `≤`. -/
def insort_left (lst : List ℚ) (pos : ℚ) : List ℚ :=
  List.orderedInsert (· ≤ ·) pos lst

/-- Python's `sorted` on rationals (insertion sort; stability is irrelevant
for a list of plain numbers). -/
def pysorted (lst : List ℚ) : List ℚ :=
  List.insertionSort (· ≤ ·) lst

/-- Python's `bisect.bisect_left` on a sorted list: the index of the first
element `≥ pos`, i.e. the number of leading elements `< pos`. -/
def bisect_left (lst : List ℚ) (pos : ℚ) : ℕ :=
  (lst.takeWhile (fun x => x < pos)).length

/-- Python's `bisect.bisect_right` on a sorted list: the number of leading
elements `≤ pos`. -/
def bisect_right (lst : List ℚ) (pos : ℚ) : ℕ :=
  (lst.takeWhile (fun x => x ≤ pos)).length

/-- Loop body of `_remove_dups` (mesh.py lines 151-164).  `acc` holds the
output list built so far in reverse order (so `del new_lst[-1]` is
`acc.tail`), `last` is the `last` variable of the source loop. -/
def _remove_dups_go (fixed : List ℚ) : List ℚ → Option ℚ → List ℚ → List ℚ
  | acc, _, [] => acc.reverse
  | acc, none, elt :: rest => _remove_dups_go fixed (elt :: acc) (some elt) rest
  | acc, some l, elt :: rest =>
    if elt = l then _remove_dups_go fixed acc (some l) rest
    else if fp_equalp elt l && !(fixed.contains elt) then
      _remove_dups_go fixed acc (some l) rest
    else if fp_equalp elt l && fixed.contains elt then
      _remove_dups_go fixed (elt :: acc.tail) (some elt) rest
    else
      _remove_dups_go fixed (elt :: acc) (some elt) rest

/-- `_remove_dups` (mesh.py lines 138-164): remove duplicates from a sorted
list; near-duplicates (within the floating-point tolerance) are dropped
unless the newcomer is in `fixed`, in which case the previously kept
element is deleted instead. -/
def _remove_dups (lst : List ℚ) (fixed : List ℚ := []) : List ℚ :=
  _remove_dups_go fixed [] none lst

/-- `_add_lines_to_mesh` (mesh.py lines 1668-1679) for one axis: each new
line is inserted by `insort_left` (`_add_mesh_line`), then the whole axis
list is deduplicated against the axis's fixed lines. -/
def _add_lines_to_mesh (lines : List ℚ) (mesh_lines fixed : List ℚ) : List ℚ :=
  _remove_dups (lines.foldl insort_left mesh_lines) fixed

lemma remove_dups_go_chain (fixed : List ℚ) :
    ∀ (input acc : List ℚ) (last : Option ℚ),
      List.Sorted (· ≤ ·) input →
      List.Chain' (· > ·) acc →
      (last = none → acc = []) →
      (∀ l, last = some l → acc.head? = some l ∧ ∀ e ∈ input, l ≤ e) →
      List.Chain' (· < ·) (_remove_dups_go fixed acc last input)
  | [], acc, last, _, hacc, _, _ => by
    rw [_remove_dups_go]
    exact List.chain'_reverse.mpr hacc
  | elt :: rest, acc, none, hsort, hacc, hnone, _ => by
    rw [_remove_dups_go]
    rcases List.sorted_cons.mp hsort with ⟨hle, hrest⟩
    refine remove_dups_go_chain fixed rest (elt :: acc) (some elt) hrest ?_
      (by simp) ?_
    · rw [hnone rfl]
      exact List.chain'_singleton elt
    · intro l hl
      obtain rfl : elt = l := by simpa using hl
      exact ⟨rfl, hle⟩
  | elt :: rest, acc, some l, hsort, hacc, _, hsome => by
    rcases List.sorted_cons.mp hsort with ⟨hle, hrest⟩
    obtain ⟨hhead, hbound⟩ := hsome l rfl
    obtain ⟨t, rfl⟩ : ∃ t, acc = l :: t := by
      cases acc with
      | nil => simp at hhead
      | cons a t =>
        obtain rfl : a = l := by simpa using hhead
        exact ⟨t, rfl⟩
    have hlelt : l ≤ elt := hbound elt (by simp)
    have hrestb : ∀ e ∈ rest, l ≤ e := fun e he => hbound e (by simp [he])
    rw [_remove_dups_go]
    by_cases h1 : elt = l
    · rw [if_pos h1]
      exact remove_dups_go_chain fixed rest (l :: t) (some l) hrest hacc (by simp)
        (fun l' hl' => by simpa [← Option.some_inj.mp hl'] using hrestb)
    · rw [if_neg h1]
      have hlt : l < elt := lt_of_le_of_ne hlelt (fun h => h1 h.symm)
      have hrest' : ∀ e ∈ rest, elt ≤ e := fun e he =>
        List.sorted_cons.mp hsort |>.1 e he
      by_cases h2 : (fp_equalp elt l && !(fixed.contains elt)) = true
      · rw [if_pos h2]
        exact remove_dups_go_chain fixed rest (l :: t) (some l) hrest hacc (by simp)
          (fun l' hl' => by simpa [← Option.some_inj.mp hl'] using hrestb)
      · rw [if_neg h2]
        by_cases h3 : (fp_equalp elt l && fixed.contains elt) = true
        · rw [if_pos h3]
          refine remove_dups_go_chain fixed rest (elt :: t) (some elt) hrest ?_
            (by simp) ?_
          · rcases List.chain'_cons'.mp hacc with ⟨hlt', hchain⟩
            exact List.chain'_cons'.mpr
              ⟨fun y hy => lt_trans (hlt' y hy) hlt, hchain⟩
          · intro l' hl'
            exact ⟨by simp [← Option.some_inj.mp hl'],
              by simpa [← Option.some_inj.mp hl'] using hrest'⟩
        · rw [if_neg h3]
          refine remove_dups_go_chain fixed rest (elt :: l :: t) (some elt) hrest ?_
            (by simp) ?_
          · refine List.chain'_cons'.mpr ⟨fun y hy => ?_, hacc⟩
            obtain rfl : l = y := by simpa using hy
            exact hlt
          · intro l' hl'
            exact ⟨by simp [← Option.some_inj.mp hl'],
              by simpa [← Option.some_inj.mp hl'] using hrest'⟩

/-- `_remove_dups` of a sorted list is strictly increasing. -/
lemma remove_dups_chain (lst fixed : List ℚ) (h : List.Sorted (· ≤ ·) lst) :
    List.Chain' (· < ·) (_remove_dups lst fixed) :=
  remove_dups_go_chain fixed lst [] none h (List.chain'_nil) (fun _ => rfl)
    (fun _ hl => by simp at hl)

/-- Repeated `insort_left` preserves sortedness. -/
lemma foldl_insort_sorted (lines : List ℚ) :
    ∀ mesh_lines : List ℚ, List.Sorted (· ≤ ·) mesh_lines →
      List.Sorted (· ≤ ·) (lines.foldl insort_left mesh_lines) := by
  induction lines with
  | nil => intro mesh h; exact h
  | cons a lines ih =>
    intro mesh h
    exact ih (insort_left mesh a) (List.Sorted.orderedInsert a mesh h)

/-- Claim C1: after any call to `_add_lines_to_mesh`, the axis's mesh-line
list is strictly increasing: every element is strictly less than its
successor (exact duplicates are removed and near-duplicates are merged by
`_remove_dups`). -/
theorem add_lines_to_mesh_strictly_increasing
    (lines mesh_lines fixed : List ℚ) (h : List.Sorted (· ≤ ·) mesh_lines) :
    List.Chain' (· < ·) (_add_lines_to_mesh lines mesh_lines fixed) :=
  remove_dups_chain _ fixed (foldl_insort_sorted lines mesh_lines h)

/-- Claim C1 witness: a concrete run of `_add_lines_to_mesh`. -/
theorem add_lines_to_mesh_strictly_increasing_witness :
    List.Sorted (· ≤ ·) ([1, 3] : List ℚ) ∧
      List.Chain' (· < ·) (_add_lines_to_mesh [2, 1] [1, 3] [1]) :=
  ⟨by decide, add_lines_to_mesh_strictly_increasing [2, 1] [1, 3] [1] (by decide)⟩

/-- Claim C5: counter-evidence.  Two distinct fixed positions that are
within the floating-point tolerance of each other are merged by
`_remove_dups` (the earlier fixed position is deleted), although the
function's own documentation says a fixed element may be removed only when
it is duplicated exactly. -/
theorem remove_dups_drops_nearby_fixed :
    fp_equalp 0 (1 / 2000000) = true ∧ (0 : ℚ) ≠ 1 / 2000000 ∧
      _remove_dups [0, 1 / 2000000] [0, 1 / 2000000] = [1 / 2000000] := by
  refine ⟨by decide, by decide, by decide⟩

/-- `_geom_dist` (mesh.py lines 222-236): total distance spanned by a
geometric series, `smaller_spacing * Σ_{k=1}^{num-1} factor^k`
(`powers = np.arange(1, num)`). -/
def _geom_dist (factor : ℚ) (num : ℕ) (smaller_spacing : ℚ) : ℚ :=
  smaller_spacing * ((List.range' 1 (num - 1)).map (fun k => factor ^ k)).sum

/-- `_geom_dist_zero` (mesh.py lines 239-246): residual between the
geometric distance and a requested distance. -/
def _geom_dist_zero (factor : ℚ) (num : ℕ) (smaller_spacing dist : ℚ) : ℚ :=
  _geom_dist factor num smaller_spacing - dist

/-- Modelled from the spec: `_factor_for_num` (mesh.py lines 202-211) calls
`scipy.optimize.fsolve`, an external numeric nonlinear solver, on the
residual `_geom_dist_zero`.  Following the spec ("root-finds the
geometric-series ratio such that the series sum equals the distance"), the
solver is modelled as fuelled interval bisection that succeeds exactly when
it finds a factor whose residual is within `tol`. -/
def fsolve_geom (num : ℕ) (smaller_spacing dist tol : ℚ) :
    ℕ → ℚ → ℚ → Option ℚ
  | 0, _, _ => none
  | fuel + 1, lo, hi =>
    let mid := (lo + hi) / 2
    let r := _geom_dist_zero mid num smaller_spacing dist
    if |r| ≤ tol then some mid
    else if r < 0 then fsolve_geom num smaller_spacing dist tol fuel mid hi
    else fsolve_geom num smaller_spacing dist tol fuel lo mid

/-- Modelled from the spec: `_factor_for_num(num, smaller_spacing, dist)`
with the fsolve call replaced by bisection (seeded bracket `[0, max 2 (dist /
smaller_spacing)]` in place of the source's starting point `1.5`).
`none` models a non-convergent solver run. -/
def _factor_for_num (num : ℕ) (smaller_spacing dist tol : ℚ) (fuel : ℕ) :
    Option ℚ :=
  fsolve_geom num smaller_spacing dist tol fuel 0 (max 2 (dist / smaller_spacing))

lemma fsolve_geom_residual (num : ℕ) (s d tol : ℚ) :
    ∀ (fuel : ℕ) (lo hi f : ℚ), fsolve_geom num s d tol fuel lo hi = some f →
      |_geom_dist f num s - d| ≤ tol := by
  intro fuel
  induction fuel with
  | zero => intro lo hi f h; simp [fsolve_geom] at h
  | succ fuel ih =>
    intro lo hi f h
    rw [fsolve_geom] at h
    by_cases h1 : |_geom_dist_zero ((lo + hi) / 2) num s d| ≤ tol
    · rw [if_pos h1] at h
      obtain rfl : (lo + hi) / 2 = f := by simpa using h
      simpa [_geom_dist_zero] using h1
    · rw [if_neg h1] at h
      by_cases h2 : _geom_dist_zero ((lo + hi) / 2) num s d < 0
      · rw [if_pos h2] at h
        exact ih _ _ _ h
      · rw [if_neg h2] at h
        exact ih _ _ _ h

/-- Claim C2: round-trip property of the factor solver.  Whenever the
solver converges (returns a factor), evaluating the geometric-series sum
`_geom_dist` at that factor reproduces the requested distance up to the
solver's convergence tolerance. -/
theorem factor_for_num_round_trip (num : ℕ) (s d tol : ℚ) (fuel : ℕ) (f : ℚ)
    (hnum : 2 ≤ num) (hs : 0 < s) (hd : 0 < d)
    (hconv : _factor_for_num num s d tol fuel = some f) :
    |_geom_dist f num s - d| ≤ tol :=
  fsolve_geom_residual num s d tol fuel 0 (max 2 (d / s)) f hconv

/-- Claim C2 witness: for `num = 2`, `s = 1`, `d = 1` the bisection solver
converges (to factor `1`) and the round-trip holds with zero tolerance. -/
theorem factor_for_num_round_trip_witness :
    2 ≤ 2 ∧ (0 : ℚ) < 1 ∧ _factor_for_num 2 1 1 0 1 = some 1 ∧
      |_geom_dist 1 2 1 - 1| ≤ 0 :=
  ⟨le_refl 2, by decide, by decide,
    factor_for_num_round_trip 2 1 1 0 1 1 (le_refl 2) (by decide) (by decide)
      (by decide)⟩

/-- Decrementing loop of `_num_for_factor` (mesh.py lines 273-280).
`solve n` stands for `_factor_for_num(n, smaller_spacing, dist)` — in the
source a scipy fsolve call that can return an arbitrary float, so the
results below are proved for an arbitrary solver function. -/
def _num_for_factor_loop (solve : ℕ → ℚ) (factor : ℚ) (num : ℕ) :
    Except Unit (ℚ × ℕ) :=
  if factor < 1 then
    if h : num - 1 = 0 then .error ()
    else _num_for_factor_loop solve (solve (num - 1)) (num - 1)
  else .ok (factor, num)
termination_by num
decreasing_by omega

/-- `_num_for_factor` (mesh.py lines 249-280).  The initial term-count
estimate `num0` is `ceil(log(1 - ((dist/smaller_spacing + 1)*(1 - factor)))
/ log(factor) + 1)` in the source (mesh.py lines 264-270); the logarithm is
transcendental, so the estimate enters here as a parameter (for `factor > 1`,
`smaller_spacing > 0`, `dist > 0` it is the ceiling of a value strictly
greater than 1, hence `≥ 2`).  The source raises `RuntimeError` when the
loop drives the count to 0, modelled by `Except.error`. -/
def _num_for_factor (solve : ℕ → ℚ) (num0 : ℕ) : Except Unit (ℚ × ℕ) :=
  _num_for_factor_loop solve (solve num0) num0

lemma num_for_factor_loop_result (solve : ℕ → ℚ) :
    ∀ (num : ℕ) (factor : ℚ), 1 ≤ num →
      _num_for_factor_loop solve factor num = .error () ∨
        ∃ f n, _num_for_factor_loop solve factor num = .ok (f, n) ∧
          1 ≤ f ∧ 1 ≤ n ∧ n ≤ num := by
  intro num
  induction num using Nat.strong_induction_on with
  | _ num ih =>
    intro factor hnum
    rw [_num_for_factor_loop]
    by_cases hf : factor < 1
    · rw [if_pos hf]
      by_cases hz : num - 1 = 0
      · rw [dif_pos hz]
        exact Or.inl rfl
      · rw [dif_neg hz]
        rcases ih (num - 1) (by omega) (solve (num - 1)) (by omega) with h | ⟨f, n, h, hf1, hn1, hn2⟩
        · exact Or.inl h
        · exact Or.inr ⟨f, n, h, hf1, hn1, by omega⟩
    · rw [if_neg hf]
      exact Or.inr ⟨factor, num, rfl, le_of_not_lt hf, hnum, le_refl num⟩

/-- Claim C3: `_num_for_factor` (for any behaviour of the underlying
numeric solver, and any initial term-count estimate `num0 ≥ 1`, which holds
for every `factor > 1`, `smaller_spacing > 0`, `dist > 0`) either raises
the fatal error (count driven to 0) or returns `(factor', count)` with
`factor' ≥ 1` and `count ≥ 1`; it never returns a factor below 1.  The
decrementing loop terminates: `_num_for_factor_loop` is a total function
(well-founded recursion on the decreasing count). -/
theorem num_for_factor_result (solve : ℕ → ℚ) (num0 : ℕ) (h : 1 ≤ num0) :
    _num_for_factor solve num0 = .error () ∨
      ∃ f n, _num_for_factor solve num0 = .ok (f, n) ∧ 1 ≤ f ∧ 1 ≤ n ∧ n ≤ num0 :=
  num_for_factor_loop_result solve num0 (solve num0) h

/-- Claim C3 witness: a solver run that dips below 1 once (at count 3) and
then recovers: the loop decrements once and returns factor `2` with
count `2`. -/
theorem num_for_factor_result_witness :
    1 ≤ 3 ∧
      (_num_for_factor (fun n => if n = 3 then (1 : ℚ) / 2 else 2) 3 = .error () ∨
        ∃ f n, _num_for_factor (fun n => if n = 3 then (1 : ℚ) / 2 else 2) 3 = .ok (f, n) ∧
          1 ≤ f ∧ 1 ≤ n ∧ n ≤ 3) :=
  ⟨by decide, num_for_factor_result (fun n => if n = 3 then (1 : ℚ) / 2 else 2) 3 (by decide)⟩

/-- `np.linspace(lo, hi, n)`: `n` evenly spaced points from `lo` to `hi`
inclusive (for `n = 1` numpy returns `[lo]`, which the formula also gives
since `x / 0 = 0` on `ℚ`). -/
def linspace (lo hi : ℚ) (n : ℕ) : List ℚ :=
  (List.range n).map (fun i : ℕ => lo + (hi - lo) * (i : ℚ) / ((n : ℚ) - 1))

/-- Line count of the equal-spacings branch (mesh.py lines 327-328):
`num_lines = max(int(ceil((upper - lower) / lower_spacing)) + 1, min_lines)`. -/
def uniform_line_count (lower upper lower_spacing : ℚ) (min_lines : ℕ) : ℕ :=
  (max (⌈(upper - lower) / lower_spacing⌉ + 1) (min_lines : ℤ)).toNat

/-- `_lines_const_factor_in_bounds` (mesh.py lines 313-351).  The
equal-spacings branch (lines 326-329) is translated exactly.  The
geometric branch (lines 331-351) depends on the fsolve-based
`_geom_series`; it enters as the parameter `geom_branch` and is never
evaluated by the equal-spacings claims. -/
def _lines_const_factor_in_bounds
    (geom_branch : ℚ → ℚ → ℚ → ℚ → ℕ → ℕ → ℚ → List ℚ)
    (lower upper lower_spacing upper_spacing : ℚ) (dim : ℕ)
    (min_lines : ℕ) (smooth : ℚ) : List ℚ :=
  if np_isclose lower_spacing upper_spacing then
    linspace lower upper (uniform_line_count lower upper lower_spacing min_lines)
  else geom_branch lower upper lower_spacing upper_spacing dim min_lines smooth

lemma linspace_length (lo hi : ℚ) (n : ℕ) : (linspace lo hi n).length = n := by
  simp [linspace]

lemma linspace_head? (lo hi : ℚ) (n : ℕ) (h : 0 < n) :
    (linspace lo hi n).head? = some lo := by
  obtain ⟨m, rfl⟩ := Nat.exists_eq_succ_of_ne_zero (Nat.pos_iff_ne_zero.mp h)
  simp [linspace, List.range_succ_eq_map]

lemma linspace_getLast? (lo hi : ℚ) (n : ℕ) (h : 2 ≤ n) :
    (linspace lo hi n).getLast? = some hi := by
  obtain ⟨m, rfl⟩ := Nat.exists_eq_succ_of_ne_zero (by omega : n ≠ 0)
  have hmq : (1 : ℚ) ≤ (m : ℚ) := by exact_mod_cast (by omega : (1 : ℕ) ≤ m)
  have hm0 : (m : ℚ) ≠ 0 := by linarith
  have hcast : ((m.succ : ℕ) : ℚ) - 1 = (m : ℚ) := by push_cast; ring
  rw [List.getLast?_eq_getElem?, linspace_length, linspace]
  rw [List.getElem?_map]
  simp only [List.getElem?_range (by omega : m.succ - 1 < m.succ)]
  simp only [Option.map_some', Option.some.injEq, Nat.succ_sub_one]
  rw [hcast, mul_div_assoc, div_self hm0]
  ring

lemma linspace_chain' (lo hi : ℚ) (n : ℕ) :
    List.Chain' (fun a b => b - a = (hi - lo) / ((n : ℚ) - 1)) (linspace lo hi n) := by
  rw [linspace, List.chain'_map]
  cases n with
  | zero => simp
  | succ m =>
    rw [List.chain'_range_succ]
    intro i _
    push_cast
    ring

/-- Claim C7: in the equal-spacings branch (`lower_spacing ≈ upper_spacing`
within relative tolerance `1e-3`), `_lines_const_factor_in_bounds` returns
exactly `max(ceil((upper-lower)/lower_spacing)+1, min_lines)` equally
spaced lines from `lower` to `upper` inclusive, with uniform spacing at
most `lower_spacing`; in particular for equal spacings `s`, distance `4s`
and `min_lines ≤ 5` it returns exactly 5 lines spaced exactly `s`, and
whenever `min_lines` does not dominate, the count is
`ceil(distance/lower_spacing) + 1`. -/
theorem lines_const_factor_in_bounds_spec
    (geom_branch : ℚ → ℚ → ℚ → ℚ → ℕ → ℕ → ℚ → List ℚ)
    (lower upper lower_spacing upper_spacing : ℚ) (dim : ℕ)
    (min_lines : ℕ) (smooth : ℚ)
    (hlt : lower < upper) (hsp : 0 < lower_spacing)
    (hclose : np_isclose lower_spacing upper_spacing = true) :
    _lines_const_factor_in_bounds geom_branch lower upper lower_spacing
        upper_spacing dim min_lines smooth =
      linspace lower upper (uniform_line_count lower upper lower_spacing min_lines) ∧
      (_lines_const_factor_in_bounds geom_branch lower upper lower_spacing
        upper_spacing dim min_lines smooth).length =
        uniform_line_count lower upper lower_spacing min_lines ∧
      (_lines_const_factor_in_bounds geom_branch lower upper lower_spacing
        upper_spacing dim min_lines smooth).head? = some lower ∧
      (_lines_const_factor_in_bounds geom_branch lower upper lower_spacing
        upper_spacing dim min_lines smooth).getLast? = some upper ∧
      List.Chain'
        (fun a b => b - a = (upper - lower) /
          ((uniform_line_count lower upper lower_spacing min_lines : ℚ) - 1))
        (_lines_const_factor_in_bounds geom_branch lower upper lower_spacing
          upper_spacing dim min_lines smooth) ∧
      (upper - lower) /
          ((uniform_line_count lower upper lower_spacing min_lines : ℚ) - 1) ≤
        lower_spacing ∧
      (upper_spacing = lower_spacing → upper - lower = 4 * lower_spacing →
        min_lines ≤ 5 →
        uniform_line_count lower upper lower_spacing min_lines = 5 ∧
          (upper - lower) /
            ((uniform_line_count lower upper lower_spacing min_lines : ℚ) - 1) =
            lower_spacing) ∧
      (min_lines ≤ (⌈(upper - lower) / lower_spacing⌉ + 1).toNat →
        uniform_line_count lower upper lower_spacing min_lines =
          (⌈(upper - lower) / lower_spacing⌉).toNat + 1) := by
  have hceil : 1 ≤ ⌈(upper - lower) / lower_spacing⌉ := by
    rw [Int.one_le_ceil_iff]
    exact div_pos (by linarith) hsp
  have hn2 : 2 ≤ uniform_line_count lower upper lower_spacing min_lines := by
    rw [uniform_line_count]
    have : (2 : ℤ) ≤ max (⌈(upper - lower) / lower_spacing⌉ + 1) (min_lines : ℤ) :=
      le_trans (by omega) (le_max_left _ _)
    omega
  have hlines : _lines_const_factor_in_bounds geom_branch lower upper lower_spacing
      upper_spacing dim min_lines smooth =
      linspace lower upper (uniform_line_count lower upper lower_spacing min_lines) := by
    rw [_lines_const_factor_in_bounds, if_pos hclose]
  have hnge : (upper - lower) / lower_spacing ≤
      ((uniform_line_count lower upper lower_spacing min_lines : ℚ)) - 1 := by
    have h1 : (upper - lower) / lower_spacing ≤
        ((⌈(upper - lower) / lower_spacing⌉ : ℤ) : ℚ) := Int.le_ceil _
    have h2 : (⌈(upper - lower) / lower_spacing⌉ : ℤ) ≤
        (uniform_line_count lower upper lower_spacing min_lines : ℤ) - 1 := by
      rw [uniform_line_count]
      have := le_max_left (⌈(upper - lower) / lower_spacing⌉ + 1) (min_lines : ℤ)
      omega
    refine le_trans h1 ?_
    have : ((⌈(upper - lower) / lower_spacing⌉ : ℤ) : ℚ) ≤
        ((uniform_line_count lower upper lower_spacing min_lines : ℤ) : ℚ) - 1 := by
      have := @Int.cast_le ℚ _ _ _ |>.mpr h2
      push_cast at this ⊢
      linarith
    simpa using this
  have hn1pos : (0 : ℚ) <
      ((uniform_line_count lower upper lower_spacing min_lines : ℚ)) - 1 := by
    have : (2 : ℚ) ≤ (uniform_line_count lower upper lower_spacing min_lines : ℚ) := by
      exact_mod_cast hn2
    linarith
  refine ⟨hlines, by rw [hlines, linspace_length],
    by rw [hlines]; exact linspace_head? _ _ _ (by omega),
    by rw [hlines]; exact linspace_getLast? _ _ _ hn2,
    by rw [hlines]; exact linspace_chain' _ _ _, ?_, ?_, ?_⟩
  · rw [div_le_iff hsp] at hnge
    rw [div_le_iff hn1pos]
    linarith
  · intro _ hdist hmin
    have h4 : (upper - lower) / lower_spacing = 4 := by
      rw [hdist]
      field_simp
    have hc4 : ⌈(upper - lower) / lower_spacing⌉ = 4 := by
      rw [h4]
      exact_mod_cast Int.ceil_intCast (α := ℚ) 4
    have hn5 : uniform_line_count lower upper lower_spacing min_lines = 5 := by
      rw [uniform_line_count, hc4]
      omega
    refine ⟨hn5, ?_⟩
    rw [hn5, hdist]
    norm_num
  · intro hmin
    rw [uniform_line_count]
    omega

/-- Claim C7 witness: equal spacings `1` over `[0, 4]` with `min_lines = 5`
produce exactly the 5 lines `0, 1, 2, 3, 4`. -/
theorem lines_const_factor_in_bounds_witness :
    (0 : ℚ) < 4 ∧ (0 : ℚ) < 1 ∧ np_isclose 1 1 = true ∧
      _lines_const_factor_in_bounds (fun _ _ _ _ _ _ _ => []) 0 4 1 1 0 5 (6 / 5) =
        [0, 1, 2, 3, 4] := by
  refine ⟨by decide, by decide, by decide, ?_⟩
  have h := (lines_const_factor_in_bounds_spec (fun _ _ _ _ _ _ _ => []) 0 4 1 1 0 5
    (6 / 5) (by decide) (by decide) (by decide)).1
  rw [h]
  decide

/-- Uniform spacing computed for a PML slab (mesh.py lines 701-702):
`dist = lines[-1] - lines[0]`, `spacing = dist / (len(lines) - 1)`. -/
def pml_uniform_spacing (lines : List ℚ) : ℚ :=
  (lines.getLastD 0 - lines.headD 0) / ((lines.length : ℚ) - 1)

/-- Spacing decision of `_smooth_pml_mesh_lines` for one PML slab
(mesh.py lines 704-734): clamp the uniform spacing to
`limit_spacing * smooth_factor` when it exceeds the limiting spacing by at
least the smoothness factor, raise `RuntimeError` (PML growth) when it is
smaller than the limiting spacing by at least the smoothness factor, and
skip the slab (`continue`, modelled as `none`) when the resulting spacing
is within the `np.isclose` tolerance of the limiting spacing.
`ok (some s)` means the slab is re-levelled with uniform spacing `s`. -/
def _smooth_pml_decision (spacing limit_spacing smooth_factor : ℚ) :
    Except Unit (Option ℚ) := do
  let spacing ←
    if spacing > limit_spacing ∧ spacing / limit_spacing ≥ smooth_factor then
      pure (limit_spacing * smooth_factor)
    else if spacing < limit_spacing ∧ limit_spacing / spacing ≥ smooth_factor then
      throw ()
    else
      pure spacing
  if np_isclose spacing limit_spacing then pure none else pure (some spacing)

/-- Claim C8: for a PML slab with positive uniform and limiting spacings
and a smoothness factor above the `np.isclose` tolerance band
(`smooth_factor > 1000/999`, true of any realistic factor such as the
default 1.2): an excessive uniform spacing is clamped to
`limit_spacing * smooth_factor`; a deficient uniform spacing raises the
fatal PML-growth error; a spacing within tolerance of the limiting spacing
leaves the slab unchanged. -/
theorem smooth_pml_decision_spec (spacing limit_spacing smooth_factor : ℚ)
    (hsp : 0 < spacing) (hlim : 0 < limit_spacing)
    (hsm : (1000 : ℚ) / 999 < smooth_factor) :
    (spacing > limit_spacing → spacing / limit_spacing ≥ smooth_factor →
      _smooth_pml_decision spacing limit_spacing smooth_factor =
        .ok (some (limit_spacing * smooth_factor))) ∧
    (spacing < limit_spacing → limit_spacing / spacing ≥ smooth_factor →
      _smooth_pml_decision spacing limit_spacing smooth_factor = .error ()) ∧
    (np_isclose spacing limit_spacing = true →
      _smooth_pml_decision spacing limit_spacing smooth_factor = .ok none) := by
  have hsm1 : (1 : ℚ) < smooth_factor := lt_trans (by norm_num) hsm
  refine ⟨?_, ?_, ?_⟩
  · intro h1 h2
    rw [_smooth_pml_decision]
    rw [if_pos ⟨h1, h2⟩]
    have hclose : np_isclose (limit_spacing * smooth_factor) limit_spacing = false := by
      rw [np_isclose]
      simp only [decide_eq_false_iff_not, not_le]
      rw [abs_of_pos hlim]
      have : limit_spacing * smooth_factor - limit_spacing =
          limit_spacing * (smooth_factor - 1) := by ring
      rw [this, abs_of_pos (by nlinarith)]
      nlinarith
    simp only [bind, Except.bind, pure, Except.pure]
    rw [hclose]
    simp
  · intro h1 h2
    rw [_smooth_pml_decision]
    have hn1 : ¬(spacing > limit_spacing ∧ spacing / limit_spacing ≥ smooth_factor) := by
      rintro ⟨hgt, -⟩
      exact absurd h1 (not_lt_of_gt hgt)
    rw [if_neg hn1, if_pos ⟨h1, h2⟩]
    rfl
  · intro hclose
    rw [np_isclose, decide_eq_true_eq] at hclose
    have habs : |spacing - limit_spacing| ≤ (1 / 1000) * limit_spacing := by
      rwa [abs_of_pos hlim] at hclose
    have hb1 : ¬(spacing > limit_spacing ∧ spacing / limit_spacing ≥ smooth_factor) := by
      rintro ⟨hgt, hge⟩
      rw [ge_iff_le, le_div_iff hlim] at hge
      have h1 : spacing - limit_spacing ≤ (1 / 1000) * limit_spacing :=
        le_trans (le_abs_self _) habs
      nlinarith
    have hb2 : ¬(spacing < limit_spacing ∧ limit_spacing / spacing ≥ smooth_factor) := by
      rintro ⟨hlt, hge⟩
      rw [ge_iff_le, le_div_iff hsp] at hge
      have h1 : limit_spacing - spacing ≤ (1 / 1000) * limit_spacing := by
        have := neg_abs_le (spacing - limit_spacing)
        linarith [habs]
      nlinarith
    rw [_smooth_pml_decision, if_neg hb1, if_neg hb2]
    simp only [bind, Except.bind, pure, Except.pure]
    rw [np_isclose]
    simp only [decide_eq_true_eq]
    rw [if_pos hclose]

/-- Claim C8 witness: spacing `3`, limiting spacing `1`, smoothness `6/5`:
the slab spacing is clamped to `6/5`; spacing within tolerance (equal)
skips; deficient spacing `1/3` against limit `1` raises. -/
theorem smooth_pml_decision_witness :
    (0 : ℚ) < 3 ∧ (0 : ℚ) < 1 ∧ (1000 : ℚ) / 999 < 6 / 5 ∧
      _smooth_pml_decision 3 1 (6 / 5) = .ok (some (1 * (6 / 5))) ∧
      _smooth_pml_decision (1 / 3) 1 (6 / 5) = .error () ∧
      _smooth_pml_decision 1 1 (6 / 5) = .ok none :=
  ⟨by decide, by decide, by decide,
    (smooth_pml_decision_spec 3 1 (6 / 5) (by decide) (by decide) (by decide)).1
      (by decide) (by decide),
    (smooth_pml_decision_spec (1 / 3) 1 (6 / 5) (by decide) (by decide)
      (by decide)).2.1 (by decide) (by decide),
    (smooth_pml_decision_spec 1 1 (6 / 5) (by decide) (by decide) (by decide)).2.2
      (by decide)⟩

/-- `nearest_mesh_line` (mesh.py lines 1153-1180) for one axis: binary
search for the insertion point, then pick the closer of the two
surrounding lines (ties go to the upper line).  Out-of-range `getD`
defaults are never reached: the two indices used in each branch are valid
by construction. -/
def nearest_mesh_line (lines : List ℚ) (pos : ℚ) : Option (ℕ × ℚ) :=
  if lines.isEmpty then none
  else
    let bisect_pos := bisect_left lines pos
    if bisect_pos = 0 then some (0, lines.getD 0 0)
    else if bisect_pos = lines.length then
      some (bisect_pos - 1, lines.getD (bisect_pos - 1) 0)
    else
      let lower := lines.getD (bisect_pos - 1) 0
      let upper := lines.getD bisect_pos 0
      if pos - lower < upper - pos then some (bisect_pos - 1, lower)
      else some (bisect_pos, upper)

lemma bisect_left_spec (pos : ℚ) : ∀ lst : List ℚ,
    bisect_left lst pos ≤ lst.length ∧
      (∀ j, j < bisect_left lst pos → lst.getD j 0 < pos) ∧
      (bisect_left lst pos < lst.length → pos ≤ lst.getD (bisect_left lst pos) 0)
  | [] => by simp [bisect_left]
  | a :: t => by
    obtain ⟨ih1, ih2, ih3⟩ := bisect_left_spec pos t
    by_cases ha : a < pos
    · have hb : bisect_left (a :: t) pos = bisect_left t pos + 1 := by
        simp [bisect_left, List.takeWhile_cons, decide_eq_true ha]
      refine ⟨by simp [hb]; omega, ?_, ?_⟩
      · intro j hj
        cases j with
        | zero => simpa using ha
        | succ j =>
          rw [hb] at hj
          simpa using ih2 j (by omega)
      · intro hlt
        rw [hb] at hlt ⊢
        simpa using ih3 (by simpa using hlt)
    · have hb : bisect_left (a :: t) pos = 0 := by
        simp [bisect_left, List.takeWhile_cons, decide_eq_false ha]
      refine ⟨by simp [hb], by simp [hb], ?_⟩
      intro _
      rw [hb]
      simpa using le_of_not_lt ha

lemma sorted_getD_strict (lst : List ℚ) (h : List.Chain' (· < ·) lst) :
    ∀ i j, i < j → j < lst.length → lst.getD i 0 < lst.getD j 0 := by
  intro i j hij hj
  have hp : List.Pairwise (· < ·) lst := List.chain'_iff_pairwise.mp h
  have hi : i < lst.length := lt_trans hij hj
  rw [List.getD_eq_getElem?_getD, List.getD_eq_getElem?_getD,
    List.getElem?_eq_getElem hi, List.getElem?_eq_getElem hj]
  exact List.pairwise_iff_getElem.mp hp i j hi hj hij

lemma sorted_getD_mono (lst : List ℚ) (h : List.Chain' (· < ·) lst) :
    ∀ i j, i ≤ j → j < lst.length → lst.getD i 0 ≤ lst.getD j 0 := by
  intro i j hij hj
  rcases lt_or_eq_of_le hij with hlt | rfl
  · exact le_of_lt (sorted_getD_strict lst h i j hlt hj)
  · exact le_refl _

/-- Claim C10: `nearest_mesh_line` returns `none` on an empty axis;
otherwise it returns an index/position pair where the position is the
element of the (strictly sorted) line list minimizing the distance to
`pos`, ties are resolved to the higher line (the returned position is the
largest minimizer), and the index is that element's index in the list. -/
theorem nearest_mesh_line_spec (lines : List ℚ) (pos : ℚ)
    (hsorted : List.Chain' (· < ·) lines) :
    (lines = [] → nearest_mesh_line lines pos = none) ∧
    (lines ≠ [] → ∃ i x, nearest_mesh_line lines pos = some (i, x) ∧
      lines[i]? = some x ∧
      (∀ j, j < lines.length → |pos - x| ≤ |pos - lines.getD j 0|) ∧
      (∀ j, j < lines.length → |pos - lines.getD j 0| = |pos - x| →
        lines.getD j 0 ≤ x)) := by
  constructor
  · intro h
    rw [h]
    rfl
  · intro hne
    have hlen : 0 < lines.length := List.length_pos.mpr hne
    obtain ⟨hble, hlo, hhi⟩ := bisect_left_spec pos lines
    have hmono := sorted_getD_mono lines hsorted
    have hstrict := sorted_getD_strict lines hsorted
    have hemp : lines.isEmpty = false := by
      cases lines with
      | nil => exact absurd rfl hne
      | cons a t => rfl
    rw [nearest_mesh_line]
    rw [hemp]
    simp only [Bool.false_eq_true, if_false]
    set b := bisect_left lines pos with hbdef
    by_cases hb0 : b = 0
    · rw [if_pos hb0]
      have hhi0 : pos ≤ lines.getD 0 0 := by
        rw [← hb0]
        exact hhi (by omega)
      refine ⟨0, lines.getD 0 0, rfl, ?_, ?_, ?_⟩
      · rw [List.getD_eq_getElem?_getD, List.getElem?_eq_getElem hlen]
        rfl
      · intro j hj
        have hple : pos ≤ lines.getD j 0 :=
          le_trans hhi0 (hmono 0 j (Nat.zero_le j) hj)
        rw [abs_of_nonpos (by linarith), abs_of_nonpos (by linarith)]
        have := hmono 0 j (Nat.zero_le j) hj
        linarith
      · intro j hj habs
        have hple : pos ≤ lines.getD j 0 :=
          le_trans hhi0 (hmono 0 j (Nat.zero_le j) hj)
        rw [abs_of_nonpos (by linarith), abs_of_nonpos (by linarith)] at habs
        linarith
    · rw [if_neg hb0]
      by_cases hbl : b = lines.length
      · rw [if_pos hbl]
        refine ⟨b - 1, lines.getD (b - 1) 0, rfl, ?_, ?_, ?_⟩
        · rw [List.getD_eq_getElem?_getD, List.getElem?_eq_getElem (by omega)]
          rfl
        · intro j hj
          have hjlt : lines.getD j 0 < pos := hlo j (by omega)
          have hlast : lines.getD (b - 1) 0 < pos := hlo (b - 1) (by omega)
          rw [abs_of_nonneg (by linarith), abs_of_nonneg (by linarith)]
          have := hmono j (b - 1) (by omega) (by omega)
          linarith
        · intro j hj habs
          have hjlt : lines.getD j 0 < pos := hlo j (by omega)
          have hlast : lines.getD (b - 1) 0 < pos := hlo (b - 1) (by omega)
          rw [abs_of_nonneg (by linarith), abs_of_nonneg (by linarith)] at habs
          linarith
      · rw [if_neg hbl]
        have hbl' : b < lines.length := lt_of_le_of_ne hble hbl
        have hblow : lines.getD (b - 1) 0 < pos := hlo (b - 1) (by omega)
        have hbup : pos ≤ lines.getD b 0 := hhi hbl'
        by_cases hc : pos - lines.getD (b - 1) 0 < lines.getD b 0 - pos
        · rw [if_pos hc]
          refine ⟨b - 1, lines.getD (b - 1) 0, rfl, ?_, ?_, ?_⟩
          · rw [List.getD_eq_getElem?_getD, List.getElem?_eq_getElem (by omega)]
            rfl
          · intro j hj
            rw [abs_of_nonneg (by linarith)]
            rcases lt_or_ge j b with hjb | hjb
            · have hjlt : lines.getD j 0 < pos := hlo j hjb
              rw [abs_of_nonneg (by linarith)]
              have := hmono j (b - 1) (by omega) (by omega)
              linarith
            · have hjge : pos ≤ lines.getD j 0 :=
                le_trans hbup (hmono b j hjb hj)
              rw [abs_of_nonpos (by linarith)]
              have := hmono b j hjb hj
              linarith
          · intro j hj habs
            have hxabs : |pos - lines.getD (b - 1) 0| = pos - lines.getD (b - 1) 0 :=
              abs_of_nonneg (by linarith)
            rcases lt_or_ge j b with hjb | hjb
            · have hjlt : lines.getD j 0 < pos := hlo j hjb
              have hjabs : |pos - lines.getD j 0| = pos - lines.getD j 0 :=
                abs_of_nonneg (by linarith)
              rw [hjabs, hxabs] at habs
              linarith
            · have hjge : pos ≤ lines.getD j 0 :=
                le_trans hbup (hmono b j hjb hj)
              have hjabs : |pos - lines.getD j 0| = -(pos - lines.getD j 0) :=
                abs_of_nonpos (by linarith)
              rw [hjabs, hxabs] at habs
              have := hmono b j hjb hj
              linarith
        · rw [if_neg hc]
          push_neg at hc
          refine ⟨b, lines.getD b 0, rfl, ?_, ?_, ?_⟩
          · rw [List.getD_eq_getElem?_getD, List.getElem?_eq_getElem hbl']
            rfl
          · intro j hj
            rw [abs_of_nonpos (by linarith)]
            rcases lt_or_ge j b with hjb | hjb
            · have hjlt : lines.getD j 0 < pos := hlo j hjb
              rw [abs_of_nonneg (by linarith)]
              have := hmono j (b - 1) (by omega) (by omega)
              linarith
            · have hjge : pos ≤ lines.getD j 0 :=
                le_trans hbup (hmono b j hjb hj)
              rw [abs_of_nonpos (by linarith)]
              have := hmono b j hjb hj
              linarith
          · intro j hj habs
            have hxabs : |pos - lines.getD b 0| = -(pos - lines.getD b 0) :=
              abs_of_nonpos (by linarith)
            rcases lt_or_ge j b with hjb | hjb
            · have hjlt : lines.getD j 0 < pos := hlo j hjb
              have hjabs : |pos - lines.getD j 0| = pos - lines.getD j 0 :=
                abs_of_nonneg (by linarith)
              rw [hjabs, hxabs] at habs
              have hx : lines.getD (b - 1) 0 ≤ lines.getD b 0 :=
                hmono (b - 1) b (by omega) hbl'
              linarith
            · rcases eq_or_lt_of_le hjb with rfl | hjb'
              · exact le_refl _
              · have hjge : pos ≤ lines.getD j 0 :=
                  le_trans hbup (hmono b j hjb hj)
                have hjabs : |pos - lines.getD j 0| = -(pos - lines.getD j 0) :=
                  abs_of_nonpos (by linarith)
                rw [hjabs, hxabs] at habs
                have := hstrict b j hjb' hj
                linarith

/-- Claim C10 witness: on the axis `[0, 1, 3]` with query `2` the distances
to `1` and `3` tie and the upper line `3` (index 2) is returned. -/
theorem nearest_mesh_line_witness :
    ([0, 1, 3] : List ℚ) ≠ [] ∧
      ∃ i x, nearest_mesh_line [0, 1, 3] 2 = some (i, x) ∧
        ([0, 1, 3] : List ℚ)[i]? = some x ∧
        (∀ j, j < ([0, 1, 3] : List ℚ).length →
          |2 - x| ≤ |2 - ([0, 1, 3] : List ℚ).getD j 0|) ∧
        (∀ j, j < ([0, 1, 3] : List ℚ).length →
          |2 - ([0, 1, 3] : List ℚ).getD j 0| = |2 - x| →
          ([0, 1, 3] : List ℚ).getD j 0 ≤ x) :=
  ⟨by decide, (nearest_mesh_line_spec [0, 1, 3] 2
    (by simp [List.chain'_cons])).2 (by decide)⟩

/-- `_mesh_valid_index` (mesh.py lines 1354-1360) for one axis:
`0 <= index < len(mesh_lines[dim])`. -/
def _mesh_valid_index (mesh : List ℚ) (index : ℤ) : Bool :=
  0 ≤ index ∧ index < mesh.length

/-- `get_mesh_line` (mesh.py lines 1182-1195) for one axis (the
dimension-validity check concerns the other axes and is outside this
per-axis model); raises `ValueError` on an invalid index. -/
def get_mesh_line (mesh : List ℚ) (index : ℤ) : Except String ℚ :=
  if _mesh_valid_index mesh index then .ok (mesh.getD index.toNat 0)
  else .error "Mesh line index is outside valid range."

/-- `_line_below_inc` (mesh.py lines 1290-1308) for one axis. -/
def _line_below_inc (mesh : List ℚ) (pos : ℚ) : Option (ℤ × ℚ) :=
  match nearest_mesh_line mesh pos with
  | none => none
  | some (idx0, act_pos) =>
    let idx : ℤ := idx0
    if fp_lep act_pos pos then some (idx, act_pos)
    else if _mesh_valid_index mesh (idx - 1) then
      some (idx - 1, mesh.getD (idx - 1).toNat 0)
    else none

/-- `_line_above_inc` (mesh.py lines 1334-1352) for one axis. -/
def _line_above_inc (mesh : List ℚ) (pos : ℚ) : Option (ℤ × ℚ) :=
  match nearest_mesh_line mesh pos with
  | none => none
  | some (idx0, act_pos) =>
    let idx : ℤ := idx0
    if fp_gep act_pos pos then some (idx, act_pos)
    else if _mesh_valid_index mesh (idx + 1) then
      some (idx + 1, mesh.getD (idx + 1).toNat 0)
    else none

/-- Python `del lst[a:b]` for `0 ≤ a`, `0 ≤ b` (no removal when `b ≤ a`). -/
def del_slice (lst : List ℚ) (a b : ℤ) : List ℚ :=
  lst.take a.toNat ++ lst.drop (max a.toNat b.toNat)

/-- `_clear_mesh_in_bounds` (mesh.py lines 1244-1253) for one axis; a
`none` from either inclusive-line lookup would make the source's slice
deletion a `TypeError`. -/
def _clear_mesh_in_bounds (mesh : List ℚ) (lower upper : ℚ) :
    Except String (List ℚ) :=
  match _line_above_inc mesh lower, _line_below_inc mesh upper with
  | some (lower_idx, _), some (upper_idx, _) =>
    .ok (del_slice mesh lower_idx (upper_idx + 1))
  | _, _ => .error "TypeError"

/-- Range-fixedness check of `set_lines_equidistant` (mesh.py lines
1209-1211): `get_mesh_line` for each index in order, raising on a fixed
line. -/
def check_movable (mesh fixed : List ℚ) : List ℤ → Except String Unit
  | [] => .ok ()
  | i :: rest => do
    let x ← get_mesh_line mesh i
    if fixed.contains x then throw "Trying to move an unmovable line."
    else check_movable mesh fixed rest

/-- `set_lines_equidistant` (mesh.py lines 1197-1242) for one axis.  Note
the source compares `abs(lower_spacing - spacing)` (an absolute spacing
difference) against `self.smooth[dim]` (the smoothness ratio bound), and
`lower_spacing and ...` is falsy for `None` and for `0.0`. -/
def set_lines_equidistant (mesh fixed : List ℚ) (smooth : ℚ)
    (lower upper : ℕ) : Except String (List ℚ) := do
  check_movable mesh fixed
    ((List.range' lower (upper + 1 - lower)).map (fun i => (i : ℤ)))
  let lower_spacing : Option ℚ ←
    if lower ≠ 0 then do
      let a ← get_mesh_line mesh (lower : ℤ)
      let b ← get_mesh_line mesh ((lower : ℤ) - 1)
      pure (some (a - b))
    else pure none
  let upper_spacing : Option ℚ ←
    if upper ≠ mesh.length - 1 then do
      let a ← get_mesh_line mesh ((upper : ℤ) + 1)
      let b ← get_mesh_line mesh (upper : ℤ)
      pure (some (a - b))
    else pure none
  let num_spaces : ℕ := upper - lower
  let lower_pos ← get_mesh_line mesh (lower : ℤ)
  let upper_pos ← get_mesh_line mesh (upper : ℤ)
  let spacing := (upper_pos - lower_pos) / (num_spaces : ℚ)
  let bad : Option ℚ → Bool := fun o =>
    match o with
    | none => false
    | some s => s ≠ 0 && |s - spacing| > smooth
  if bad lower_spacing || bad upper_spacing then
    throw "Cannot set equidistant lines and keep smoothness."
  let cleared ← _clear_mesh_in_bounds mesh lower_pos upper_pos
  let new_lines := linspace lower_pos upper_pos (num_spaces + 1)
  pure (new_lines.foldl insort_left cleared)

/-- Claim C9: counter-evidence for the smoothness check.  On the axis
`[0, 1/10, 101/1000, 3/25]`, re-levelling indices 1..3 produces uniform
spacing `1/100` against an untouched neighbouring spacing `1/10` — a
cell-size ratio of 10, far above the smoothness factor `6/5` — yet
`set_lines_equidistant` raises no error and replaces the lines, because
the source compares the absolute spacing difference `9/100` (not the
ratio) against the smoothness factor. -/
theorem set_lines_equidistant_ignores_ratio :
    ((1 : ℚ) / 10) / ((1 : ℚ) / 100) > 6 / 5 ∧
      |(1 : ℚ) / 10 - 1 / 100| ≤ 6 / 5 ∧
      set_lines_equidistant [0, 1 / 10, 101 / 1000, 3 / 25] [] (6 / 5) 1 3 =
        .ok [0, 1 / 10, 11 / 100, 3 / 25] := by
  refine ⟨by decide, by decide, by rfl⟩

/-- Material type (`class Type`, mesh.py lines 24-32; `Type` is reserved in
Lean). -/
inductive MatType where
  | metal
  | nonmetal
  | air
deriving DecidableEq, Repr

/-- PhysicalPrimitive: an axis-aligned bounding box (three per-axis scalar
pairs, as produced by `_get_prim_bounds`) plus a material tag
(`_prim_metalp`: conductors — Metal/ConductingSheet/LumpedElement — versus
`Material` nonmetals). -/
structure Prim where
  bounds : List (ℚ × ℚ)
  metal : Bool
deriving DecidableEq, Repr

/-- `_get_prim_bounds` (mesh.py lines 95-109): per-axis `[min, max]`
normalisation of the box corners (the CSXCAD transform handling acts
before this model's inputs). -/
def _get_prim_bounds (prim : Prim) : List (ℚ × ℚ) :=
  prim.bounds.map (fun b => (min b.1 b.2, max b.1 b.2))

/-- `_float_inside` (mesh.py lines 194-199). -/
def _float_inside (val lower upper : ℚ) : Bool :=
  val ≥ lower ∧ val ≤ upper

/-- Axis extent of a primitive for dimension `dim`. -/
def prim_dim_size (prim : Prim) (dim : ℕ) : ℚ :=
  ((_get_prim_bounds prim).getD dim (0, 0)).2 -
    ((_get_prim_bounds prim).getD dim (0, 0)).1

/-- Whether a primitive's axis extent contains `pos` (the
`_float_inside` test of `_type_at_pos`). -/
def prim_covers (prim : Prim) (dim : ℕ) (pos : ℚ) : Bool :=
  _float_inside pos ((_get_prim_bounds prim).getD dim (0, 0)).1
    ((_get_prim_bounds prim).getD dim (0, 0)).2

/-- Loop body of `_type_at_pos` (mesh.py lines 432-447).  The state is
`(smallest_dim, current_type)`; `none` for `smallest_dim` is the initial
`np.inf` (nothing is `np.isclose` to infinity, and every size is below
it). -/
def _type_at_pos_step (dim : ℕ) (pos : ℚ) (st : Option ℚ × Option MatType)
    (prim : Prim) : Option ℚ × Option MatType :=
  if prim_covers prim dim pos then
    let dim_size := prim_dim_size prim dim
    match st.1 with
    | some smallest =>
      if np_isclose dim_size smallest then
        if prim.metal then (some dim_size, some .metal) else st
      else if dim_size < smallest then
        (some dim_size, some (if prim.metal then .metal else .nonmetal))
      else st
    | none =>
      (some dim_size, some (if prim.metal then .metal else .nonmetal))
  else st

/-- `_type_at_pos` (mesh.py lines 413-449). -/
def _type_at_pos (prims : List Prim) (dim : ℕ) (pos : ℚ) : Option MatType :=
  (prims.foldl (_type_at_pos_step dim pos) (none, none)).2

/-- `a` is strictly smaller than `b` beyond the classification tolerance:
smaller, and not `np.isclose` in either argument order (the source's check
is asymmetric). -/
def strictly_smaller_beyond_tol (a b : ℚ) : Prop :=
  a < b ∧ np_isclose a b = false ∧ np_isclose b a = false

instance (a b : ℚ) : Decidable (strictly_smaller_beyond_tol a b) :=
  decidable_of_iff (a < b ∧ np_isclose a b = false ∧ np_isclose b a = false)
    Iff.rfl

lemma np_isclose_self (x : ℚ) : np_isclose x x = true := by
  rw [np_isclose]
  simp only [sub_self, abs_zero, decide_eq_true_eq]
  positivity

lemma step_noncover (dim : ℕ) (pos : ℚ) (st : Option ℚ × Option MatType)
    (P : Prim) (h : prim_covers P dim pos = false) :
    _type_at_pos_step dim pos st P = st := by
  simp [_type_at_pos_step, h]

lemma step_fst_cases (dim : ℕ) (pos : ℚ) (st : Option ℚ × Option MatType)
    (P : Prim) :
    (_type_at_pos_step dim pos st P).1 = st.1 ∨
      (_type_at_pos_step dim pos st P).1 = some (prim_dim_size P dim) := by
  rw [_type_at_pos_step]
  by_cases hc : prim_covers P dim pos
  · rw [if_pos hc]
    rcases st with ⟨s1, s2⟩
    match s1 with
    | none => right; rfl
    | some smallest =>
      by_cases h1 : np_isclose (prim_dim_size P dim) smallest
      · simp only [h1, if_true]
        by_cases h2 : P.metal
        · simp [h2]
        · simp [h2]
      · simp only [Bool.not_eq_true] at h1
        simp only [h1]
        by_cases h2 : prim_dim_size P dim < smallest
        · simp [h2]
        · simp [h2]
  · simp [hc]

lemma step_inert (dim : ℕ) (pos : ℚ) (s : ℚ) (t : Option MatType) (P : Prim)
    (hni : np_isclose (prim_dim_size P dim) s = false)
    (hnlt : ¬ prim_dim_size P dim < s) :
    _type_at_pos_step dim pos (some s, t) P = (some s, t) := by
  rw [_type_at_pos_step]
  by_cases hc : prim_covers P dim pos
  · rw [if_pos hc]
    simp [hni, hnlt]
  · simp [hc]

lemma step_covers_none (dim : ℕ) (pos : ℚ) (t : Option MatType) (P : Prim)
    (hc : prim_covers P dim pos = true) :
    _type_at_pos_step dim pos (none, t) P =
      (some (prim_dim_size P dim),
        some (if P.metal then .metal else .nonmetal)) := by
  rw [_type_at_pos_step, if_pos hc]

lemma step_covers_smaller (dim : ℕ) (pos : ℚ) (s : ℚ) (t : Option MatType)
    (P : Prim) (hc : prim_covers P dim pos = true)
    (hni : np_isclose (prim_dim_size P dim) s = false)
    (hlt : prim_dim_size P dim < s) :
    _type_at_pos_step dim pos (some s, t) P =
      (some (prim_dim_size P dim),
        some (if P.metal then .metal else .nonmetal)) := by
  rw [_type_at_pos_step, if_pos hc]
  simp [hni, hlt]

lemma step_covers_close (dim : ℕ) (pos : ℚ) (s : ℚ) (t : Option MatType)
    (P : Prim) (hc : prim_covers P dim pos = true)
    (hi : np_isclose (prim_dim_size P dim) s = true) :
    _type_at_pos_step dim pos (some s, t) P =
      (if P.metal then (some (prim_dim_size P dim), some .metal)
        else (some s, t)) := by
  rw [_type_at_pos_step, if_pos hc]
  simp [hi]

lemma type_at_pos_fold_none (dim : ℕ) (pos : ℚ) :
    ∀ (rest : List Prim) (st : Option ℚ × Option MatType),
      (∀ P ∈ rest, prim_covers P dim pos = false) →
      List.foldl (_type_at_pos_step dim pos) st rest = st
  | [], st, _ => rfl
  | P :: rest, st, h => by
    rw [List.foldl_cons, step_noncover dim pos st P (h P (by simp))]
    exact type_at_pos_fold_none dim pos rest st (fun Q hQ => h Q (by simp [hQ]))

lemma type_at_pos_fold_single (dim : ℕ) (pos : ℚ) (A : Prim)
    (hcov : prim_covers A dim pos = true) :
    ∀ (rest : List Prim) (st : Option ℚ × Option MatType),
      (∀ P ∈ rest, P = A ∨ prim_covers P dim pos = false ∨
        strictly_smaller_beyond_tol (prim_dim_size A dim) (prim_dim_size P dim)) →
      ((A ∈ rest ∧ (st.1 = none ∨ ∃ s, st.1 = some s ∧
          strictly_smaller_beyond_tol (prim_dim_size A dim) s)) ∨
        st = (some (prim_dim_size A dim),
          some (if A.metal then MatType.metal else MatType.nonmetal))) →
      List.foldl (_type_at_pos_step dim pos) st rest =
        (some (prim_dim_size A dim),
          some (if A.metal then MatType.metal else MatType.nonmetal)) := by
  intro rest
  induction rest with
  | nil =>
    intro st _ hinv
    rcases hinv with ⟨habs, _⟩ | rfl
    · exact absurd habs (List.not_mem_nil A)
    · rfl
  | cons P rest ih =>
    intro st hall hinv
    have hP := hall P (by simp)
    have hall' : ∀ Q ∈ rest, Q = A ∨ prim_covers Q dim pos = false ∨
        strictly_smaller_beyond_tol (prim_dim_size A dim) (prim_dim_size Q dim) :=
      fun Q hQ => hall Q (by simp [hQ])
    rw [List.foldl_cons]
    rcases hinv with ⟨hAmem, hpre⟩ | hdone
    · by_cases hPA : P = A
      · subst hPA
        rcases hpre with h1 | ⟨s, hs, hssbt⟩
        · rcases st with ⟨s1, s2⟩
          simp only at h1
          subst h1
          rw [step_covers_none dim pos s2 P hcov]
          exact ih _ hall' (Or.inr rfl)
        · rcases st with ⟨s1, s2⟩
          simp only at hs
          subst hs
          rw [step_covers_smaller dim pos s s2 P hcov hssbt.2.1 hssbt.1]
          exact ih _ hall' (Or.inr rfl)
      · have hAmem' : A ∈ rest := by
          rcases List.mem_cons.mp hAmem with h | h
          · exact absurd h.symm hPA
          · exact h
        rcases hP with h | hnc | hssbt
        · exact absurd h hPA
        · rw [step_noncover dim pos st P hnc]
          exact ih _ hall' (Or.inl ⟨hAmem', hpre⟩)
        · refine ih _ hall' (Or.inl ⟨hAmem', ?_⟩)
          rcases step_fst_cases dim pos st P with hfst | hfst
          · rw [hfst]
            exact hpre
          · rw [hfst]
            exact Or.inr ⟨prim_dim_size P dim, rfl, hssbt⟩
    · rcases hP with hPA | hnc | hssbt
      · subst hPA
        have hstep : _type_at_pos_step dim pos st P = st := by
          rw [hdone, step_covers_close dim pos _ _ P hcov (np_isclose_self _)]
          by_cases hm : P.metal
          · simp [hm]
          · simp [hm]
        rw [hstep]
        exact ih _ hall' (Or.inr hdone)
      · rw [step_noncover dim pos st P hnc]
        exact ih _ hall' (Or.inr hdone)
      · have hstep : _type_at_pos_step dim pos st P = st := by
          rw [hdone]
          exact step_inert dim pos _ _ P hssbt.2.2 (not_lt_of_gt hssbt.1)
        rw [hstep]
        exact ih _ hall' (Or.inr hdone)

lemma type_at_pos_fold_pair (dim : ℕ) (pos : ℚ) (M N : Prim)
    (hMc : prim_covers M dim pos = true) (hNc : prim_covers N dim pos = true)
    (hMm : M.metal = true)
    (hc1 : np_isclose (prim_dim_size M dim) (prim_dim_size N dim) = true)
    (hc2 : np_isclose (prim_dim_size N dim) (prim_dim_size M dim) = true) :
    ∀ (rest : List Prim) (st : Option ℚ × Option MatType),
      (∀ P ∈ rest, P = M ∨ P = N ∨ prim_covers P dim pos = false ∨
        (strictly_smaller_beyond_tol (prim_dim_size M dim) (prim_dim_size P dim) ∧
          strictly_smaller_beyond_tol (prim_dim_size N dim) (prim_dim_size P dim))) →
      ((M ∈ rest ∧
        ((st.1 = none ∨ ∃ s, st.1 = some s ∧
            strictly_smaller_beyond_tol (prim_dim_size M dim) s ∧
            strictly_smaller_beyond_tol (prim_dim_size N dim) s) ∨
          st = (some (prim_dim_size N dim),
            some (if N.metal then MatType.metal else MatType.nonmetal)))) ∨
        ((List.foldl (_type_at_pos_step dim pos) st []).2 = some MatType.metal ∧
          (st.1 = some (prim_dim_size M dim) ∨ st.1 = some (prim_dim_size N dim)))) →
      ((List.foldl (_type_at_pos_step dim pos) st rest).2 = some MatType.metal ∧
        ((List.foldl (_type_at_pos_step dim pos) st rest).1 =
            some (prim_dim_size M dim) ∨
          (List.foldl (_type_at_pos_step dim pos) st rest).1 =
            some (prim_dim_size N dim))) := by
  intro rest
  induction rest with
  | nil =>
    intro st _ hinv
    rcases hinv with ⟨habs, _⟩ | hdone
    · exact absurd habs (List.not_mem_nil M)
    · exact hdone
  | cons P rest ih =>
    intro st hall hinv
    have hP := hall P (by simp)
    have hall' : ∀ Q ∈ rest, Q = M ∨ Q = N ∨ prim_covers Q dim pos = false ∨
        (strictly_smaller_beyond_tol (prim_dim_size M dim) (prim_dim_size Q dim) ∧
          strictly_smaller_beyond_tol (prim_dim_size N dim) (prim_dim_size Q dim)) :=
      fun Q hQ => hall Q (by simp [hQ])
    rw [List.foldl_cons]
    rcases hinv with ⟨hMmem, hpre⟩ | ⟨hdm, hds⟩
    · by_cases hPM : P = M
      · subst hPM
        have hgoal : _type_at_pos_step dim pos st P =
            (some (prim_dim_size P dim), some MatType.metal) := by
          rcases hpre with (h1 | ⟨s, hs, hsM, hsN⟩) | hafn
          · rcases st with ⟨s1, s2⟩
            simp only at h1
            subst h1
            rw [step_covers_none dim pos s2 P hMc]
            simp [hMm]
          · rcases st with ⟨s1, s2⟩
            simp only at hs
            subst hs
            rw [step_covers_smaller dim pos s s2 P hMc hsM.2.1 hsM.1]
            simp [hMm]
          · rw [hafn, step_covers_close dim pos _ _ P hMc hc1]
            simp [hMm]
        rw [hgoal]
        exact ih _ hall' (Or.inr ⟨by simp, Or.inl rfl⟩)
      · have hMmem' : M ∈ rest := by
          rcases List.mem_cons.mp hMmem with h | h
          · exact absurd h.symm hPM
          · exact h
        rcases hP with h | hPN | hnc | hssbt
        · exact absurd h hPM
        · subst hPN
          rcases hpre with (h1 | ⟨s, hs, hsM, hsN⟩) | hafn
          · rcases st with ⟨s1, s2⟩
            simp only at h1
            subst h1
            rw [step_covers_none dim pos s2 P hNc]
            exact ih _ hall' (Or.inl ⟨hMmem', Or.inr rfl⟩)
          · rcases st with ⟨s1, s2⟩
            simp only at hs
            subst hs
            rw [step_covers_smaller dim pos s s2 P hNc hsN.2.1 hsN.1]
            exact ih _ hall' (Or.inl ⟨hMmem', Or.inr rfl⟩)
          · rw [hafn, step_covers_close dim pos _ _ P hNc (np_isclose_self _)]
            by_cases hm : P.metal
            · rw [if_pos hm]
              exact ih _ hall' (Or.inr ⟨by simp, Or.inr rfl⟩)
            · rw [if_neg hm]
              exact ih _ hall' (Or.inl ⟨hMmem', Or.inr rfl⟩)
        · rw [step_noncover dim pos st P hnc]
          exact ih _ hall' (Or.inl ⟨hMmem', hpre⟩)
        · rcases hpre with hpre1 | hafn
          · refine ih _ hall' (Or.inl ⟨hMmem', Or.inl ?_⟩)
            rcases step_fst_cases dim pos st P with hfst | hfst
            · rw [hfst]
              exact hpre1
            · rw [hfst]
              exact Or.inr ⟨prim_dim_size P dim, rfl, hssbt.1, hssbt.2⟩
          · have hstep : _type_at_pos_step dim pos st P = st := by
              rw [hafn]
              exact step_inert dim pos _ _ P hssbt.2.2.2 (not_lt_of_gt hssbt.2.1)
            rw [hstep]
            exact ih _ hall' (Or.inl ⟨hMmem', Or.inr hafn⟩)
    · simp only [List.foldl_nil] at hdm
      have hstep : (_type_at_pos_step dim pos st P).2 = some MatType.metal ∧
          ((_type_at_pos_step dim pos st P).1 = some (prim_dim_size M dim) ∨
            (_type_at_pos_step dim pos st P).1 = some (prim_dim_size N dim)) := by
        rcases hds with hs | hs <;> rcases st with ⟨s1, s2⟩ <;> simp only at hs hdm <;>
          subst hs <;> subst hdm
        · rcases hP with hPM | hPN | hnc | hssbt
          · subst hPM
            rw [step_covers_close dim pos _ _ P hMc (np_isclose_self _), hMm]
            simp
          · subst hPN
            rw [step_covers_close dim pos _ _ P hNc hc2]
            by_cases hm : P.metal
            · simp [hm]
            · simp [hm]
          · rw [step_noncover dim pos _ P hnc]
            simp
          · rw [step_inert dim pos _ _ P hssbt.1.2.2 (not_lt_of_gt hssbt.1.1)]
            simp
        · rcases hP with hPM | hPN | hnc | hssbt
          · subst hPM
            rw [step_covers_close dim pos _ _ P hMc hc1, hMm]
            simp
          · subst hPN
            rw [step_covers_close dim pos _ _ P hNc (np_isclose_self _)]
            by_cases hm : P.metal
            · simp [hm]
            · simp [hm]
          · rw [step_noncover dim pos _ P hnc]
            simp
          · rw [step_inert dim pos _ _ P hssbt.2.2.2 (not_lt_of_gt hssbt.2.1)]
            simp
      exact ih _ hall' (Or.inr ⟨by simpa using hstep.1, hstep.2⟩)

/-- Claim C6 (amended): `_type_at_pos` returns `none` when no primitive's
axis extent contains the position; when one covering primitive's extent is
strictly smaller beyond the tolerance (in both directions of the
asymmetric `np.isclose`) than every other covering primitive's, that
primitive's material decides (metal for conductors, nonmetal otherwise);
and when two covering primitives have extents mutually within tolerance,
at least one is a conductor, and every other covering primitive's extent
is strictly larger beyond tolerance than both, the result is metal. -/
theorem type_at_pos_spec (prims : List Prim) (dim : ℕ) (pos : ℚ) :
    ((∀ P ∈ prims, prim_covers P dim pos = false) →
      _type_at_pos prims dim pos = none) ∧
    (∀ A ∈ prims, prim_covers A dim pos = true →
      (∀ P ∈ prims, P = A ∨ prim_covers P dim pos = false ∨
        strictly_smaller_beyond_tol (prim_dim_size A dim) (prim_dim_size P dim)) →
      _type_at_pos prims dim pos =
        some (if A.metal then MatType.metal else MatType.nonmetal)) ∧
    (∀ M N : Prim, M ∈ prims → N ∈ prims →
      prim_covers M dim pos = true → prim_covers N dim pos = true →
      M.metal = true →
      np_isclose (prim_dim_size M dim) (prim_dim_size N dim) = true →
      np_isclose (prim_dim_size N dim) (prim_dim_size M dim) = true →
      (∀ P ∈ prims, P = M ∨ P = N ∨ prim_covers P dim pos = false ∨
        (strictly_smaller_beyond_tol (prim_dim_size M dim) (prim_dim_size P dim) ∧
          strictly_smaller_beyond_tol (prim_dim_size N dim) (prim_dim_size P dim))) →
      _type_at_pos prims dim pos = some MatType.metal) := by
  refine ⟨?_, ?_, ?_⟩
  · intro h
    rw [_type_at_pos, type_at_pos_fold_none dim pos prims (none, none) h]
  · intro A hA hcov hall
    rw [_type_at_pos, type_at_pos_fold_single dim pos A hcov prims (none, none) hall
      (Or.inl ⟨hA, Or.inl rfl⟩)]
  · intro M N hM hN hMc hNc hMm hc1 hc2 hall
    rw [_type_at_pos]
    exact (type_at_pos_fold_pair dim pos M N hMc hNc hMm hc1 hc2 prims (none, none)
      hall (Or.inl ⟨hM, Or.inl (Or.inl rfl)⟩)).1

/-- Claim C6 witness: a conductor and a nonmetal of exactly equal covering
extent — the conductor wins regardless of list order. -/
theorem type_at_pos_spec_witness :
    _type_at_pos [⟨[(0, 1)], false⟩, ⟨[(0, 1)], true⟩] 0 (1 / 2) =
      some MatType.metal :=
  (type_at_pos_spec [⟨[(0, 1)], false⟩, ⟨[(0, 1)], true⟩] 0 (1 / 2)).2.2
    ⟨[(0, 1)], true⟩ ⟨[(0, 1)], false⟩ (by decide) (by decide) (by decide)
    (by decide) (by decide) (by decide) (by decide) (by decide)

/-- Claim C6: counter-evidence for the original tie-break statement.  A
nonmetal of extent `999/1000` and a conductor of extent `1` both cover the
position and are within the classification tolerance
(`np.isclose(999/1000, 1, rtol=1e-3)` holds), yet the result is
`nonmetal`: the code's tolerance check is asymmetric, so the conductor
processed second fails `np.isclose(1, 999/1000)` and is ignored. -/
theorem type_at_pos_tolerance_tie_not_metal :
    prim_covers ⟨[(0, 999 / 1000)], false⟩ 0 (1 / 2) = true ∧
      prim_covers ⟨[(0, 1)], true⟩ 0 (1 / 2) = true ∧
      Prim.metal ⟨[(0, 1)], true⟩ = true ∧
      np_isclose (prim_dim_size ⟨[(0, 999 / 1000)], false⟩ 0)
        (prim_dim_size ⟨[(0, 1)], true⟩ 0) = true ∧
      _type_at_pos [⟨[(0, 999 / 1000)], false⟩, ⟨[(0, 1)], true⟩] 0 (1 / 2) =
        some MatType.nonmetal := by
  decide

/-- `BoundedType` (mesh.py lines 35-68); `prop_type` is an `Option`
because `_type_at_pos` can return `None`. -/
structure BoundedType where
  prop_type : Option MatType
  lower_bound : ℚ
  upper_bound : ℚ
deriving DecidableEq, Repr

/-- One prim's contribution to `_set_fixed_lines` (mesh.py lines
1725-1736): per dimension, a degenerate extent registers a fixed line
(`add_fixed_line` appends and sorts), then the dimension list is sorted
and exact-deduplicated (`_remove_dups` with its default empty `fixed`). -/
def _set_fixed_lines_step (fixed : List (List ℚ)) (prim : Prim) :
    List (List ℚ) :=
  (List.range 3).map (fun dim =>
    let fl := fixed.getD dim []
    let pb := (_get_prim_bounds prim).getD dim (0, 0)
    let fl := if fp_equalp pb.1 pb.2 then pysorted (fl ++ [fp_nearest pb.1])
      else fl
    _remove_dups (pysorted fl))

/-- `_set_fixed_lines` (mesh.py lines 1725-1736). -/
def _set_fixed_lines (prims : List Prim) : List (List ℚ) :=
  prims.foldl _set_fixed_lines_step [[], [], []]

/-- `_bounds_from_prims` (mesh.py lines 167-191): collect both endpoints
of every primitive per dimension, sort, deduplicate honouring the
dimension's fixed lines. -/
def _bounds_from_prims (prims : List Prim) (fixed : List (List ℚ)) :
    List (List ℚ) :=
  (List.range 3).map (fun dim =>
    let dim_bounds := (prims.map (fun prim =>
      [((_get_prim_bounds prim).getD dim (0, 0)).1,
        ((_get_prim_bounds prim).getD dim (0, 0)).2])).flatten
    _remove_dups (pysorted dim_bounds) (fixed.getD dim []))

/-- Per-dimension loop of `_bounded_types` (mesh.py lines 1738-1764):
walk the deduplicated boundary list pairing consecutive boundaries,
classifying each interval at its midpoint; a fixed boundary additionally
emits a zero-width `BoundedType` classified at the boundary itself. -/
def _bounded_types_go (prims : List Prim) (fixedDim : List ℚ) (dim : ℕ) :
    Option ℚ → List ℚ → List BoundedType
  | _, [] => []
  | last, bound :: rest =>
    if fixedDim.contains bound then
      (match last with
        | some lb =>
          [⟨_type_at_pos prims dim ((lb + bound) / 2), lb, bound⟩]
        | none => []) ++
        ⟨_type_at_pos prims dim bound, bound, bound⟩ ::
          _bounded_types_go prims fixedDim dim (some bound) rest
    else
      match last with
      | some lb =>
        ⟨_type_at_pos prims dim ((lb + bound) / 2), lb, bound⟩ ::
          _bounded_types_go prims fixedDim dim (some bound) rest
      | none => _bounded_types_go prims fixedDim dim (some bound) rest

/-- `_bounded_types` (mesh.py lines 1738-1764). -/
def _bounded_types (prims : List Prim) (fixed : List (List ℚ))
    (bounds : List (List ℚ)) : List (List BoundedType) :=
  (List.range 3).map (fun dim =>
    _bounded_types_go prims (fixed.getD dim []) dim none (bounds.getD dim []))

/-- Errors raised while resolving the simulation bounds: `valueError` is
the source's `ValueError` for absolute bounds that would ignore part of a
physical structure (mesh.py lines 1784-1787); `indexError` is the
`IndexError` Python would raise indexing `bounded_types[dim][0]` on an
axis with no bounded types. -/
inductive MeshErr where
  | valueError
  | indexError
deriving DecidableEq, Repr

/-- Configuration consumed by the bounds-expansion step: absolute
`simulation_bounds` (or `None`), per-axis `expand_bounds` cell counts, and
the nonmetal resolution (mesh.py constructor lines 508-562). -/
structure MeshCfg where
  simulation_bounds : Option (List (ℚ × ℚ))
  expand_bounds : List (ℕ × ℕ)
  nonmetal_res : ℚ
deriving DecidableEq, Repr

/-- The engine state mutated by `generate_mesh`: the three per-axis
`mesh_lines` sets, `fixed_lines`, `sim_bounds`, and whether anything was
written to the external mesh-grid sink (`_set_mesh_from_lines`). -/
structure MState where
  mesh_lines : List (List ℚ)
  fixed_lines : List (List ℚ)
  sim_bounds : List (List ℚ)
  sink_written : Bool
deriving DecidableEq, Repr

/-- One dimension of `_set_expanded_bounds` in the absolute-bounds branch
(mesh.py lines 1777-1798). -/
def _expand_dim_simbounds (sb : ℚ × ℚ) (bts : List BoundedType) :
    Except MeshErr (List BoundedType) := do
  let some first := bts.head? | throw .indexError
  let some last1 := bts.getLast? | throw .indexError
  let existing_lower := first.lower_bound
  let existing_upper := last1.upper_bound
  if fp_gtp sb.1 existing_lower || fp_ltp sb.2 existing_upper then
    throw .valueError
  else
    let bts := if !fp_equalp sb.1 existing_lower then
        ⟨some .air, sb.1, existing_lower⟩ :: bts
      else bts
    let bts := if !fp_equalp sb.2 existing_upper then
        bts ++ [⟨some .air, existing_upper, sb.2⟩]
      else bts
    pure bts

/-- One dimension of `_set_expanded_bounds` in the expand-cells branch
(mesh.py lines 1799-1816). -/
def _expand_dim_cells (expand : ℕ × ℕ) (nonmetal_res : ℚ)
    (bts : List BoundedType) : Except MeshErr (List BoundedType) := do
  let some first := bts.head? | throw .indexError
  let some last1 := bts.getLast? | throw .indexError
  let existing_lower := first.lower_bound
  let existing_upper := last1.upper_bound
  let bts := if expand.1 ≠ 0 then
      ⟨some .air, existing_lower - nonmetal_res * expand.1, existing_lower⟩ :: bts
    else bts
  let bts := if expand.2 ≠ 0 then
      bts ++ [⟨some .air, existing_upper, existing_upper + nonmetal_res * expand.2⟩]
    else bts
  pure bts

/-- `_set_expanded_bounds` (mesh.py lines 1766-1824): per-dimension
expansion (raising `ValueError` for too-narrow absolute bounds), then the
`sim_bounds` assignment from the expanded bounded types. -/
def _set_expanded_bounds (cfg : MeshCfg) (bts : List (List BoundedType)) :
    Except MeshErr (List (List BoundedType) × List (List ℚ)) := do
  let new_bts ←
    match cfg.simulation_bounds with
    | some sbs =>
      (List.range 3).mapM (fun dim =>
        _expand_dim_simbounds (sbs.getD dim (0, 0)) (bts.getD dim []))
    | none =>
      (List.range 3).mapM (fun dim =>
        _expand_dim_cells (cfg.expand_bounds.getD dim (0, 0)) cfg.nonmetal_res
          (bts.getD dim []))
  let sim_bounds ← (List.range 3).mapM (fun dim => do
    let some first := (new_bts.getD dim []).head? | throw MeshErr.indexError
    let some last1 := (new_bts.getD dim []).getLast? | throw MeshErr.indexError
    pure [first.lower_bound, last1.upper_bound])
  pure (new_bts, sim_bounds)

/-- Prefix of `generate_mesh` (mesh.py lines 602-630) up to and including
`_set_expanded_bounds`, the step that can raise the configuration
`ValueError`.  The remaining pipeline (`_set_metal_bounds`, size-ordered
line generation, trimming, PML smoothing, and `_set_mesh_from_lines`,
which performs the only writes to `mesh_lines` and the mesh-grid sink) is
abstracted as the continuation `rest`, which runs only when no error was
raised — exactly as a Python exception aborts the method.  An error
carries the state at raise time. -/
def generate_mesh (prims : List Prim) (cfg : MeshCfg)
    (rest : MState → List (List BoundedType) → MState) :
    Except (MeshErr × MState) MState :=
  let s0 : MState := ⟨[[], [], []], [[], [], []], [[], [], []], false⟩
  let fl := _set_fixed_lines prims
  let s1 : MState := { s0 with fixed_lines := fl }
  let bounds := _bounds_from_prims prims fl
  let bts := _bounded_types prims fl bounds
  match _set_expanded_bounds cfg bts with
  | .error e => .error (e, s1)
  | .ok (bts2, simb) => .ok (rest { s1 with sim_bounds := simb } bts2)

lemma expand_dim_simbounds_error (sb : ℚ × ℚ) (bts : List BoundedType)
    (f l : BoundedType) (hhead : bts.head? = some f) (hlast : bts.getLast? = some l)
    (hcond : (fp_gtp sb.1 f.lower_bound || fp_ltp sb.2 l.upper_bound) = true) :
    _expand_dim_simbounds sb bts = .error .valueError := by
  rw [_expand_dim_simbounds, hhead, hlast]
  simp only [hcond, if_true]
  rfl

lemma expand_dim_simbounds_ok (sb : ℚ × ℚ) (bts : List BoundedType)
    (f l : BoundedType) (hhead : bts.head? = some f) (hlast : bts.getLast? = some l)
    (hcond : (fp_gtp sb.1 f.lower_bound || fp_ltp sb.2 l.upper_bound) = false) :
    ∃ v, _expand_dim_simbounds sb bts = .ok v := by
  rw [_expand_dim_simbounds, hhead, hlast]
  simp only [hcond, Bool.false_eq_true, if_false]
  exact ⟨_, rfl⟩

lemma except_ok_bind {α β : Type} (v : α) (k : α → Except MeshErr β) :
    (Except.ok v >>= k) = k v := rfl

lemma except_error_bind {α β : Type} (e : MeshErr) (k : α → Except MeshErr β) :
    ((Except.error e : Except MeshErr α) >>= k) = Except.error e := rfl

lemma mapM_except_valueError {β : Type} (f : ℕ → Except MeshErr β) :
    ∀ ds : List ℕ,
      (∀ d ∈ ds, (∃ v, f d = .ok v) ∨ f d = .error .valueError) →
      (∃ d ∈ ds, f d = .error .valueError) →
      ds.mapM f = .error .valueError
  | [], _, hex => by simp at hex
  | a :: ds, hall, hex => by
    rw [List.mapM_cons]
    rcases hall a (by simp) with ⟨v, hv⟩ | he
    · rw [hv, except_ok_bind]
      have hex' : ∃ d ∈ ds, f d = .error .valueError := by
        rcases hex with ⟨d, hd, hfd⟩
        rcases List.mem_cons.mp hd with rfl | hd'
        · rw [hv] at hfd
          exact absurd hfd (by simp)
        · exact ⟨d, hd', hfd⟩
      rw [mapM_except_valueError f ds (fun d hd => hall d (by simp [hd])) hex',
        except_error_bind]
    · rw [he, except_error_bind]

/-- Claim C4: with explicit absolute simulation bounds, if on some axis
(each axis having a nonempty bounded-type sequence, i.e. actual geometry)
the requested lower bound lies above the geometry's lowest boundary (the
first bounded type's lower bound), or the requested upper bound lies
below the geometry's highest boundary, beyond tolerance, then
`generate_mesh` raises the configuration `ValueError` — for every
possible continuation of the pipeline — and the state at the raise has
all three `mesh_lines` sets empty and nothing written to the mesh-grid
sink. -/
theorem generate_mesh_narrow_bounds_error (prims : List Prim) (cfg : MeshCfg)
    (rest : MState → List (List BoundedType) → MState) (sbs : List (ℚ × ℚ))
    (hsb : cfg.simulation_bounds = some sbs)
    (hne : ∀ d, d < 3 →
      (_bounded_types prims (_set_fixed_lines prims)
        (_bounds_from_prims prims (_set_fixed_lines prims))).getD d [] ≠ [])
    (hnarrow : ∃ d, d < 3 ∧ ∃ f l : BoundedType,
      ((_bounded_types prims (_set_fixed_lines prims)
          (_bounds_from_prims prims (_set_fixed_lines prims))).getD d []).head? =
          some f ∧
      ((_bounded_types prims (_set_fixed_lines prims)
          (_bounds_from_prims prims (_set_fixed_lines prims))).getD d []).getLast? =
          some l ∧
      (fp_gtp (sbs.getD d (0, 0)).1 f.lower_bound ||
        fp_ltp (sbs.getD d (0, 0)).2 l.upper_bound) = true) :
    ∃ s : MState, generate_mesh prims cfg rest = .error (.valueError, s) ∧
      s.mesh_lines = [[], [], []] ∧ s.sink_written = false := by
  have hexp : _set_expanded_bounds cfg
      (_bounded_types prims (_set_fixed_lines prims)
        (_bounds_from_prims prims (_set_fixed_lines prims))) =
      .error .valueError := by
    set bts := _bounded_types prims (_set_fixed_lines prims)
      (_bounds_from_prims prims (_set_fixed_lines prims)) with hbts
    have hdim : ∀ d ∈ List.range 3,
        (∃ v, _expand_dim_simbounds (sbs.getD d (0, 0)) (bts.getD d []) = .ok v) ∨
          _expand_dim_simbounds (sbs.getD d (0, 0)) (bts.getD d []) =
            .error .valueError := by
      intro d hd
      have hd3 : d < 3 := by simpa using hd
      have hnemp := hne d hd3
      obtain ⟨f, t, hft⟩ := List.exists_cons_of_ne_nil hnemp
      have hf : (bts.getD d []).head? = some f := by rw [hft]; rfl
      obtain ⟨l, hl⟩ : ∃ l, (bts.getD d []).getLast? = some l := by
        rw [hft]
        exact ⟨(f :: t).getLast (by simp), List.getLast?_eq_getLast _ _⟩
      by_cases hcond : (fp_gtp (sbs.getD d (0, 0)).1 f.lower_bound ||
          fp_ltp (sbs.getD d (0, 0)).2 l.upper_bound) = true
      · exact Or.inr (expand_dim_simbounds_error _ _ f l hf hl hcond)
      · exact Or.inl (expand_dim_simbounds_ok _ _ f l hf hl
          (by simpa using hcond))
    have hmap : (List.range 3).mapM (fun dim =>
        _expand_dim_simbounds (sbs.getD dim (0, 0)) (bts.getD dim [])) =
        .error .valueError := by
      refine mapM_except_valueError _ _ hdim ?_
      obtain ⟨d, hd3, f, l, hf, hl, hcond⟩ := hnarrow
      exact ⟨d, by simpa using hd3,
        expand_dim_simbounds_error _ _ f l hf hl hcond⟩
    rw [_set_expanded_bounds, hsb]
    simp only [hmap, except_error_bind]
  refine ⟨⟨[[], [], []], _set_fixed_lines prims, [[], [], []], false⟩, ?_, rfl, rfl⟩
  rw [generate_mesh]
  rw [hexp]

/-- Claim C4 witness: one metal unit box with requested absolute x-bounds
`[1/2, 2]` (lower bound inside the geometry): the build raises the
configuration `ValueError` for the identity continuation, with empty mesh
lines and an untouched sink in the raise-time state. -/
theorem generate_mesh_narrow_bounds_error_witness :
    ∃ s : MState,
      generate_mesh [⟨[(0, 1), (0, 1), (0, 1)], true⟩]
        ⟨some [(1 / 2, 2), (-1, 2), (-1, 2)], [(8, 8), (8, 8), (8, 8)], 1 / 10⟩
        (fun s _ => s) = .error (.valueError, s) ∧
      s.mesh_lines = [[], [], []] ∧ s.sink_written = false :=
  generate_mesh_narrow_bounds_error _ _ _ [(1 / 2, 2), (-1, 2), (-1, 2)] rfl
    (by decide)
    ⟨0, by decide, ⟨some .metal, 0, 1⟩, ⟨some .metal, 0, 1⟩, by decide, by decide,
      by decide⟩

end Pyems
